import Mathlib

/-!
Verification of the Thompson-sampling ad-auction notebook
(`Online_ad_auctions_using_Thompson_sampling.ipynb`).

The notebook's algorithmic core is embedded shallowly:

* the advertiser registry (names, bids, historical views/clicks, true
  click-through rates) becomes the inductive type `Ad` together with the
  concrete tables `bid`, `views`, `clicks`, `ctr_true`, bundled into the
  record `AdSystem` so that claims quantifying over arbitrary arm sets can
  be stated as well;
* prices and probabilities, floats in the notebook, are embedded as `ℚ`;
* the `initialization()` function becomes `initialization`;
* the argmax loop pattern (`arg = None; val = 0.0; for ...: if f ad > val`)
  used both for the oracle `best` ad and for the per-round action selection
  becomes `argmaxLoop` / `best` / `select`;
* one iteration of the `TS()` loop becomes `TSstep`; the randomness the
  notebook draws from numpy (the per-arm Beta samples and the Bernoulli
  click for the chosen arm) is passed in explicitly as a `Rand` oracle;
* a Python `KeyError` (indexing `ctr_true[None]` / `ev_true[None]` when the
  argmax loop never fired) is modelled by `Option`: a failing round yields
  `none`;
* running `TS()` over a horizon becomes `TSrun`, the replication loop of
  the simulation cell becomes `driver`, and the averaging cell becomes the
  `avg_*` definitions built on `meanOver`.
-/

namespace AdAuction

/-- The three advertisers, in the order of the notebook's `ads` list. -/
inductive Ad : Type
  | crypto_magic
  | green_energy
  | infini_waves
deriving DecidableEq

/-- The notebook's `ads` list (registry order). -/
def ads : List Ad := [Ad.crypto_magic, Ad.green_energy, Ad.infini_waves]

/-- Advertiser bids in euros per click: 0.7, 0.5, 0.4. -/
def bid : Ad → ℚ
  | Ad.crypto_magic => 7/10
  | Ad.green_energy => 1/2
  | Ad.infini_waves => 2/5

/-- Historical number of views per ad. -/
def views : Ad → ℕ
  | Ad.crypto_magic => 300
  | Ad.green_energy => 140
  | Ad.infini_waves => 60

/-- Historical number of clicks per ad. -/
def clicks : Ad → ℕ
  | Ad.crypto_magic => 9
  | Ad.green_energy => 3
  | Ad.infini_waves => 2

/-- True click-through rates (hidden from the policy): 0.025, 0.012, 0.055. -/
def ctr_true : Ad → ℚ
  | Ad.crypto_magic => 1/40
  | Ad.green_energy => 3/250
  | Ad.infini_waves => 11/200

/-- An arm registry: the globals the notebook's `TS()` reads (`ads`, `bid`,
`views`, `clicks`, `ctr_true`), abstracted over the arm type so that claims
about arbitrary or single-arm registries can be stated. -/
structure AdSystem (α : Type) where
  ads : List α
  bid : α → ℚ
  views : α → ℕ
  clicks : α → ℕ
  ctr_true : α → ℚ

/-- The reference registry of the notebook. -/
def refSystem : AdSystem Ad :=
  { ads := ads, bid := bid, views := views, clicks := clicks, ctr_true := ctr_true }

variable {α : Type}

/-- True expected value of an ad: `ev_true = {ad: bid[ad]*ctr_true[ad]}`. -/
def ev_true (sys : AdSystem α) (ad : α) : ℚ :=
  sys.bid ad * sys.ctr_true ad

/-- One iteration of the notebook's argmax loop:
`if f ad > val: val, arg = f ad, ad`. The accumulator is the pair
`(arg, val)`, started at `(None, 0.0)`. -/
def argmaxStep (f : α → ℚ) (acc : Option α × ℚ) (ad : α) : Option α × ℚ :=
  if f ad > acc.2 then (some ad, f ad) else acc

/-- The notebook's argmax loop over a list, started at `arg = None`,
`val = 0.0`. -/
def argmaxLoop (f : α → ℚ) (l : List α) : Option α × ℚ :=
  l.foldl (argmaxStep f) (none, 0)

/-- The oracle-best computation of the data cell:
`for ad in ads: if ev_true[ad] > val: ...; best = arg`. -/
def best (sys : AdSystem α) : Option α :=
  (argmaxLoop (ev_true sys) sys.ads).1

/-- The action-selection loop inside `TS()`:
`for ad in ads: if bid[ad]*ctr_prior[t][ad] > val: ...`. `s` is the vector
of posterior samples for the current round. -/
def select (bid s : α → ℚ) (l : List α) : Option α :=
  (argmaxLoop (fun ad => bid ad * s ad) l).1

/-- Posterior state: the pair of dicts `(a, b)` of Beta parameters. -/
def PostState (α : Type) : Type := (α → ℕ) × (α → ℕ)

/-- The notebook's `initialization()`:
`a = {ad: clicks[ad]}`, `b = {ad: views[ad]-clicks[ad]}`.
Note there is no "+1" smoothing in the source. In the reference data
`clicks ≤ views` everywhere, so the natural subtraction is exact. -/
def initialization (sys : AdSystem α) : PostState α :=
  (fun ad => sys.clicks ad, fun ad => sys.views ad - sys.clicks ad)

/-- The posterior update at the end of a `TS()` round:
`if click == 1: a[arg] += 1 else: b[arg] += 1`. -/
def update [DecidableEq α] (st : PostState α) (arg : α) (click : ℕ) : PostState α :=
  if click = 1 then
    (fun ad => if ad = arg then st.1 ad + 1 else st.1 ad, st.2)
  else
    (st.1, fun ad => if ad = arg then st.2 ad + 1 else st.2 ad)

/-- Feeding a sequence of outcomes through `update` for a fixed arm. -/
def feedOutcomes [DecidableEq α] (st : PostState α) (arg : α) (outs : List ℕ) : PostState α :=
  outs.foldl (fun s o => update s arg o) st

/-- The randomness one round of `TS()` consumes: the Beta sample drawn for
every arm (`np.random.beta(a[ad], b[ad])`) and the Bernoulli outcome drawn
for the chosen arm (`np.random.binomial(1, ctr_true[arg])`). -/
structure Rand (α : Type) where
  samples : α → ℚ
  click : ℕ

/-- The per-round data `TS()` records: chosen arm, observed click, reward
`bid[arg]*click`, instantaneous regret `ev_true[best] - ev_true[arg]`, and
the full sample vector `ctr_prior[t]`. -/
structure Record (α : Type) where
  chosen : α
  click : ℕ
  reward : ℚ
  regret : ℚ
  samples : α → ℚ

/-- One iteration of the `TS()` loop body. Returns `none` when the Python
code would raise (`ctr_true[None]` after a selection that never fired, or
`ev_true[None]` when the oracle loop never fired). -/
def TSstep [DecidableEq α] (sys : AdSystem α) (st : PostState α) (rnd : Rand α) :
    Option (Record α × PostState α) :=
  match select sys.bid rnd.samples sys.ads with
  | none => none
  | some arg =>
    match best sys with
    | none => none
    | some b =>
      some ({ chosen := arg
              click := rnd.click
              reward := sys.bid arg * (rnd.click : ℚ)
              regret := ev_true sys b - ev_true sys arg
              samples := rnd.samples },
            update st arg rnd.click)

/-- The `for t in range(T)` loop of `TS()`, with the consumed randomness
passed as a list (one `Rand` per round). Produces the list of round
records in order together with the final posterior state. -/
def TSrun [DecidableEq α] (sys : AdSystem α) :
    PostState α → List (Rand α) → Option (List (Record α) × PostState α)
  | st, [] => some ([], st)
  | st, rnd :: rest =>
    match TSstep sys st rnd with
    | none => none
    | some (rec, st1) =>
      match TSrun sys st1 rest with
      | none => none
      | some (recs, stF) => some (rec :: recs, stF)

/-- The replication loop of the simulation cell, over an explicit list of
replication indices; each replication restarts from `initialization`. -/
def driverAux [DecidableEq α] (sys : AdSystem α) (rands : ℕ → List (Rand α)) :
    List ℕ → Option (List (List (Record α) × PostState α))
  | [] => some []
  | r :: rest =>
    match TSrun sys (initialization sys) (rands r) with
    | none => none
    | some res =>
      match driverAux sys rands rest with
      | none => none
      | some others => some (res :: others)

/-- The simulation cell: `for r in range(R): all_... [r] = TS()`, with a
horizon of `T` rounds per replication. `rands r t` is the randomness
consumed in round `t` of replication `r`. -/
def driver [DecidableEq α] (sys : AdSystem α) (T R : ℕ) (rands : ℕ → ℕ → Rand α) :
    Option (List (List (Record α) × PostState α)) :=
  driverAux sys (fun r => (List.range T).map (rands r)) (List.range R)

/-- Arithmetic mean of `f` over a list of replication results, as in
`np.mean([... for r in range(R)])`. -/
def meanOver {β : Type} (l : List β) (f : β → ℚ) : ℚ :=
  (l.map f).sum / l.length

/-- The averaging cell's `avg_reward[t]`: mean over replications of the
round-`t` reward. -/
def avg_reward (res : List (List (Record α) × PostState α)) (t : ℕ) : ℚ :=
  meanOver res (fun p => ((p.1.map Record.reward).getD t 0))

/-- The averaging cell's `avg_regret[t]`. -/
def avg_regret (res : List (List (Record α) × PostState α)) (t : ℕ) : ℚ :=
  meanOver res (fun p => ((p.1.map Record.regret).getD t 0))

/-- The averaging cell's `avg_ctr_prior[ad][t]`: mean over replications of
the round-`t` posterior sample for `ad`. -/
def avg_ctr_prior (res : List (List (Record α) × PostState α)) (ad : α) (t : ℕ) : ℚ :=
  meanOver res (fun p => ((p.1.map (fun rec => rec.samples ad)).getD t 0))

/-- The averaging cell's `avg_a[ad]`: mean over replications of the final
`a[ad]`. -/
def avg_a (res : List (List (Record α) × PostState α)) (ad : α) : ℚ :=
  meanOver res (fun p => (p.2.1 ad : ℚ))

/-- The averaging cell's `avg_b[ad]`. -/
def avg_b (res : List (List (Record α) × PostState α)) (ad : α) : ℚ :=
  meanOver res (fun p => (p.2.2 ad : ℚ))

/-!
Characterization of the argmax loop. Starting the fold at `(o, v)`, either
no arm ever fires the update (all scores are `≤ v` and the accumulator is
returned unchanged), or the result is `(some a, f a)` where `a` is the
first arm attaining the running maximum: every arm before `a` scores
strictly below `f a`, every arm after scores at most `f a`, and `v < f a`.
-/
lemma argmax_fold_spec (f : α → ℚ) (l : List α) :
    ∀ (o : Option α) (v : ℚ),
      (List.foldl (argmaxStep f) (o, v) l = (o, v) ∧ ∀ b ∈ l, f b ≤ v) ∨
      (∃ l₁ a l₂, l = l₁ ++ a :: l₂ ∧
        List.foldl (argmaxStep f) (o, v) l = (some a, f a) ∧
        v < f a ∧ (∀ b ∈ l₁, f b < f a) ∧ (∀ b ∈ l₂, f b ≤ f a)) := by
  induction l with
  | nil =>
    intro o v
    exact Or.inl ⟨rfl, by simp⟩
  | cons c rest ih =>
    intro o v
    by_cases h : f c > v
    · have hstep : argmaxStep f (o, v) c = (some c, f c) := by
        simp [argmaxStep, h]
      rw [List.foldl_cons, hstep]
      rcases ih (some c) (f c) with ⟨heq, hb⟩ | ⟨l₁, a, l₂, heq, hfold, hlt, h₁, h₂⟩
      · exact Or.inr ⟨[], c, rest, by simp, heq, h, by simp, hb⟩
      · refine Or.inr ⟨c :: l₁, a, l₂, by simp [heq], hfold, lt_trans h hlt, ?_, h₂⟩
        intro b hb
        rcases List.mem_cons.mp hb with rfl | hb'
        · exact hlt
        · exact h₁ b hb'
    · have hstep : argmaxStep f (o, v) c = (o, v) := by
        simp [argmaxStep, h]
      rw [List.foldl_cons, hstep]
      rcases ih o v with ⟨heq, hall⟩ | ⟨l₁, a, l₂, heq, hfold, hlt, h₁, h₂⟩
      · refine Or.inl ⟨heq, ?_⟩
        intro b hb
        rcases List.mem_cons.mp hb with rfl | hb'
        · exact le_of_not_lt h
        · exact hall b hb'
      · refine Or.inr ⟨c :: l₁, a, l₂, by simp [heq], hfold, hlt, ?_, h₂⟩
        intro b hb
        rcases List.mem_cons.mp hb with rfl | hb'
        · exact lt_of_le_of_lt (le_of_not_lt h) hlt
        · exact h₁ b hb'

/-- If the argmax loop returned `some a`, then `a` is a maximizer with a
strictly positive score. -/
lemma argmaxLoop_eq_some (f : α → ℚ) (l : List α) (a : α)
    (h : (argmaxLoop f l).1 = some a) :
    a ∈ l ∧ 0 < f a ∧ ∀ b ∈ l, f b ≤ f a := by
  rcases argmax_fold_spec f l none 0 with ⟨heq, _⟩ | ⟨l₁, a', l₂, heq, hfold, hlt, h₁, h₂⟩
  · rw [argmaxLoop, heq] at h
    exact absurd h (by simp)
  · rw [argmaxLoop, hfold] at h
    have ha : a' = a := by simpa using h
    subst ha
    refine ⟨by simp [heq], hlt, ?_⟩
    intro b hb
    rw [heq] at hb
    rcases List.mem_append.mp hb with hb₁ | hb₂
    · exact le_of_lt (h₁ b hb₁)
    · rcases List.mem_cons.mp hb₂ with rfl | hb₃
      · exact le_refl _
      · exact h₂ b hb₃

/-- If every score is nonpositive, the argmax loop returns `none`. -/
lemma argmaxLoop_eq_none (f : α → ℚ) (l : List α)
    (h : ∀ b ∈ l, f b ≤ 0) : (argmaxLoop f l).1 = none := by
  rcases argmax_fold_spec f l none 0 with ⟨heq, _⟩ | ⟨l₁, a', l₂, heq, hfold, hlt, _, _⟩
  · rw [argmaxLoop, heq]
  · exfalso
    have : a' ∈ l := by simp [heq]
    exact absurd (h a' this) (not_le.mpr hlt)

/-- If the list is non-empty and every score is strictly positive, the
argmax loop returns some arm. -/
lemma argmaxLoop_pos_some (f : α → ℚ) (l : List α)
    (hne : l ≠ []) (hpos : ∀ b ∈ l, 0 < f b) :
    ∃ a, (argmaxLoop f l).1 = some a := by
  rcases argmax_fold_spec f l none 0 with ⟨_, hb⟩ | ⟨l₁, a', l₂, heq, hfold, _, _, _⟩
  · exfalso
    rcases List.exists_mem_of_ne_nil l hne with ⟨c, hc⟩
    exact absurd (hb c hc) (not_le.mpr (hpos c hc))
  · exact ⟨a', by rw [argmaxLoop, hfold]⟩

/-- If the argmax loop returned `some a`, then `a` is the earliest
maximizer: the arms strictly before it score strictly below `f a`, the
arms after it score at most `f a`. -/
lemma argmaxLoop_first_max (f : α → ℚ) (l : List α) (a : α)
    (h : (argmaxLoop f l).1 = some a) :
    ∃ l₁ l₂, l = l₁ ++ a :: l₂ ∧ (∀ b ∈ l₁, f b < f a) ∧ (∀ b ∈ l₂, f b ≤ f a) := by
  rcases argmax_fold_spec f l none 0 with ⟨heq, _⟩ | ⟨l₁, a', l₂, heq, hfold, _, h₁, h₂⟩
  · rw [argmaxLoop, heq] at h
    exact absurd h (by simp)
  · rw [argmaxLoop, hfold] at h
    have ha : a' = a := by simpa using h
    subst ha
    exact ⟨l₁, l₂, heq, h₁, h₂⟩

/-!
Equation and inversion lemmas for the round engine and the driver.
-/

lemma TSrun_nil [DecidableEq α] (sys : AdSystem α) (st : PostState α) :
    TSrun sys st [] = some ([], st) := rfl

lemma TSrun_cons [DecidableEq α] (sys : AdSystem α) (st : PostState α)
    (rnd : Rand α) (rest : List (Rand α)) :
    TSrun sys st (rnd :: rest) =
      match TSstep sys st rnd with
      | none => none
      | some (rec, st1) =>
        match TSrun sys st1 rest with
        | none => none
        | some (recs, stF) => some (rec :: recs, stF) := rfl

lemma driverAux_nil [DecidableEq α] (sys : AdSystem α) (rands : ℕ → List (Rand α)) :
    driverAux sys rands [] = some [] := rfl

lemma driverAux_cons [DecidableEq α] (sys : AdSystem α) (rands : ℕ → List (Rand α))
    (r : ℕ) (rest : List ℕ) :
    driverAux sys rands (r :: rest) =
      match TSrun sys (initialization sys) (rands r) with
      | none => none
      | some res =>
        match driverAux sys rands rest with
        | none => none
        | some others => some (res :: others) := rfl

/-- The arm not updated this round keeps both parameters unchanged. -/
lemma update_ne [DecidableEq α] (st : PostState α) (a : α) (c : ℕ) (x : α)
    (hx : x ≠ a) :
    (update st a c).1 x = st.1 x ∧ (update st a c).2 x = st.2 x := by
  unfold update
  by_cases h : c = 1 <;> simp [h, hx]

/-- A single `update` never decrements either Beta parameter of any arm. -/
lemma update_le [DecidableEq α] (st : PostState α) (a : α) (c : ℕ) (x : α) :
    st.1 x ≤ (update st a c).1 x ∧ st.2 x ≤ (update st a c).2 x := by
  unfold update
  by_cases h : c = 1 <;> by_cases hx : x = a <;> simp [h, hx]

/-- Inversion of a successful round: the record's fields are exactly the
results of selection, outcome simulation, reward and regret computation of
this round, and the new state updates the chosen arm with this round's
outcome. -/
lemma TSstep_inv [DecidableEq α] (sys : AdSystem α) (st : PostState α)
    (rnd : Rand α) (rec : Record α) (st1 : PostState α)
    (h : TSstep sys st rnd = some (rec, st1)) :
    select sys.bid rnd.samples sys.ads = some rec.chosen ∧
    rec.samples = rnd.samples ∧
    rec.click = rnd.click ∧
    rec.reward = sys.bid rec.chosen * (rec.click : ℚ) ∧
    (∃ b, best sys = some b ∧ rec.regret = ev_true sys b - ev_true sys rec.chosen) ∧
    st1 = update st rec.chosen rec.click := by
  unfold TSstep at h
  cases hsel : select sys.bid rnd.samples sys.ads with
  | none => rw [hsel] at h; exact absurd h (by simp)
  | some arg =>
    rw [hsel] at h
    cases hbest : best sys with
    | none => rw [hbest] at h; exact absurd h (by simp)
    | some b =>
      rw [hbest] at h
      simp only [Option.some.injEq, Prod.mk.injEq] at h
      obtain ⟨hrec, hst⟩ := h
      subst hrec
      exact ⟨rfl, rfl, rfl, rfl, ⟨b, rfl, rfl⟩, hst.symm⟩

/-- Inversion of a successful run on a non-empty horizon. -/
lemma TSrun_cons_inv [DecidableEq α] (sys : AdSystem α) (st : PostState α)
    (rnd : Rand α) (rest : List (Rand α)) (recs : List (Record α))
    (stF : PostState α) (h : TSrun sys st (rnd :: rest) = some (recs, stF)) :
    ∃ rec st1 recs', recs = rec :: recs' ∧ TSstep sys st rnd = some (rec, st1) ∧
      TSrun sys st1 rest = some (recs', stF) := by
  rw [TSrun_cons] at h
  cases hstep : TSstep sys st rnd with
  | none => rw [hstep] at h; exact absurd h (by simp)
  | some p =>
    obtain ⟨rec1, st1⟩ := p
    simp only [hstep] at h
    cases hrun : TSrun sys st1 rest with
    | none => rw [hrun] at h; exact absurd h (by simp)
    | some q =>
      obtain ⟨recs', stF'⟩ := q
      simp only [hrun, Option.some.injEq, Prod.mk.injEq] at h
      obtain ⟨hrecs, hstF⟩ := h
      exact ⟨rec1, st1, recs', hrecs.symm, rfl, by rw [hrun, hstF]⟩

/-- A successful run produces exactly one record per round. -/
lemma TSrun_length [DecidableEq α] (sys : AdSystem α) :
    ∀ (rnds : List (Rand α)) (st : PostState α) (recs : List (Record α))
      (stF : PostState α), TSrun sys st rnds = some (recs, stF) →
      recs.length = rnds.length := by
  intro rnds
  induction rnds with
  | nil =>
    intro st recs stF h
    rw [TSrun_nil] at h
    simp only [Option.some.injEq, Prod.mk.injEq] at h
    rw [← h.1]
    rfl
  | cons rnd rest ih =>
    intro st recs stF h
    obtain ⟨rec, st1, recs', hrecs, _, hrun⟩ := TSrun_cons_inv sys st rnd rest recs stF h
    subst hrecs
    simp [ih st1 recs' stF hrun]

/-- Every recorded regret of a successful round is the oracle value minus
the chosen arm's value, and it is nonnegative. -/
lemma step_regret_nonneg [DecidableEq α] (sys : AdSystem α) (st : PostState α)
    (rnd : Rand α) (rec : Record α) (st1 : PostState α)
    (h : TSstep sys st rnd = some (rec, st1)) : 0 ≤ rec.regret := by
  obtain ⟨hsel, _, _, _, ⟨b, hbest, hregret⟩, _⟩ := TSstep_inv sys st rnd rec st1 h
  have hchosen : rec.chosen ∈ sys.ads :=
    (argmaxLoop_eq_some (fun ad => sys.bid ad * rnd.samples ad) sys.ads rec.chosen hsel).1
  have hmax := (argmaxLoop_eq_some (ev_true sys) sys.ads b hbest).2.2
  rw [hregret]
  exact sub_nonneg.mpr (hmax rec.chosen hchosen)

/-- Every record of a successful run has nonnegative regret. -/
lemma run_regret_nonneg [DecidableEq α] (sys : AdSystem α) :
    ∀ (rnds : List (Rand α)) (st : PostState α) (recs : List (Record α))
      (stF : PostState α), TSrun sys st rnds = some (recs, stF) →
      ∀ rec ∈ recs, 0 ≤ rec.regret := by
  intro rnds
  induction rnds with
  | nil =>
    intro st recs stF h rec hrec
    rw [TSrun_nil] at h
    simp only [Option.some.injEq, Prod.mk.injEq] at h
    rw [← h.1] at hrec
    exact absurd hrec (List.not_mem_nil rec)
  | cons rnd rest ih =>
    intro st recs stF h rec hrec
    obtain ⟨rec1, st1, recs', hrecs, hstep, hrun⟩ := TSrun_cons_inv sys st rnd rest recs stF h
    subst hrecs
    rcases List.mem_cons.mp hrec with rfl | hmem
    · exact step_regret_nonneg sys st rnd rec st1 hstep
    · exact ih st1 recs' stF hrun rec hmem

/-- Along a successful run the Beta parameters never decrease. -/
lemma run_state_le [DecidableEq α] (sys : AdSystem α) :
    ∀ (rnds : List (Rand α)) (st : PostState α) (recs : List (Record α))
      (stF : PostState α), TSrun sys st rnds = some (recs, stF) →
      ∀ x, st.1 x ≤ stF.1 x ∧ st.2 x ≤ stF.2 x := by
  intro rnds
  induction rnds with
  | nil =>
    intro st recs stF h x
    rw [TSrun_nil] at h
    simp only [Option.some.injEq, Prod.mk.injEq] at h
    rw [← h.2]
    exact ⟨le_refl _, le_refl _⟩
  | cons rnd rest ih =>
    intro st recs stF h x
    obtain ⟨rec1, st1, recs', hrecs, hstep, hrun⟩ := TSrun_cons_inv sys st rnd rest recs stF h
    obtain ⟨_, _, _, _, _, hst1⟩ := TSstep_inv sys st rnd rec1 st1 hstep
    have h1 := update_le st rec1.chosen rec1.click x
    rw [← hst1] at h1
    have h2 := ih st1 recs' stF hrun x
    exact ⟨le_trans h1.1 h2.1, le_trans h1.2 h2.2⟩

/-- Every replication result of the driver comes from a full run started
at the freshly initialized posterior. -/
lemma driverAux_mem_inv [DecidableEq α] (sys : AdSystem α)
    (rands : ℕ → List (Rand α)) :
    ∀ (l : List ℕ) (res : List (List (Record α) × PostState α)),
      driverAux sys rands l = some res →
      ∀ p ∈ res, ∃ r, TSrun sys (initialization sys) (rands r) = some p := by
  intro l
  induction l with
  | nil =>
    intro res h p hp
    rw [driverAux_nil] at h
    simp only [Option.some.injEq] at h
    rw [← h] at hp
    exact absurd hp (List.not_mem_nil p)
  | cons r rest ih =>
    intro res h p hp
    rw [driverAux_cons] at h
    cases h1 : TSrun sys (initialization sys) (rands r) with
    | none => rw [h1] at h; exact absurd h (by simp)
    | some q =>
      simp only [h1] at h
      cases h2 : driverAux sys rands rest with
      | none => rw [h2] at h; exact absurd h (by simp)
      | some others =>
        simp only [h2, Option.some.injEq] at h
        rw [← h] at hp
        rcases List.mem_cons.mp hp with rfl | hmem
        · exact ⟨r, h1⟩
        · exact ih others h2 p hmem

/-- The initialized posterior of the reference data is strictly positive
in both parameters for every ad (9/291, 3/137, 2/58). -/
lemma init_pos (ad : Ad) :
    0 < (initialization refSystem).1 ad ∧ 0 < (initialization refSystem).2 ad := by
  cases ad <;> exact ⟨by decide, by decide⟩

/-!
Concrete witnesses for one round of the reference system with all
posterior samples equal to 1/2 and an observed click. The selection picks
`crypto_magic` (products 0.35, 0.25, 0.2), the oracle is `infini_waves`,
so the regret is 0.022 - 0.0175 = 9/2000.
-/

/-- A constant sample vector used by witnesses. -/
def sample0 : Ad → ℚ := fun _ => 1/2

/-- One round's randomness: samples 1/2 everywhere, a click observed. -/
def rnd0 : Rand Ad := ⟨sample0, 1⟩

/-- The record produced by that round. -/
def rec0 : Record Ad :=
  { chosen := Ad.crypto_magic, click := 1, reward := 7/10, regret := 9/2000,
    samples := sample0 }

/-- The posterior state after that round. -/
def st1 : PostState Ad := update (initialization refSystem) Ad.crypto_magic 1

lemma hstep0 : TSstep refSystem (initialization refSystem) rnd0 = some (rec0, st1) := by
  with_unfolding_all rfl

lemma hrun0 : TSrun refSystem (initialization refSystem) [rnd0] = some ([rec0], st1) := by
  with_unfolding_all rfl

/-- C1 (counterexample): the claim says `initialize` applies a "+1" prior
pseudo-count, so that `crypto_magic` starts at `alpha = 10`, `beta = 292`.
The source's `initialization()` sets `a = clicks[ad]`, `b = views[ad] -
clicks[ad]` with no offset, so `crypto_magic` starts at `alpha = 9`,
`beta = 291`. -/
theorem C1_cex :
    ¬((initialization refSystem).1 Ad.crypto_magic = 10 ∧
      (initialization refSystem).2 Ad.crypto_magic = 292) := by
  decide

/-- C1 (amended): for every arm the initialized posterior is exactly the
historical counts, `alpha = historical_successes` and `beta =
historical_trials - historical_successes`, with no "+1" offset; in
particular `crypto_magic` starts at `alpha = 9`, `beta = 291`. -/
theorem C1_init_values :
    (∀ ad : Ad, (initialization refSystem).1 ad = clicks ad ∧
      (initialization refSystem).2 ad = views ad - clicks ad) ∧
    (initialization refSystem).1 Ad.crypto_magic = 9 ∧
    (initialization refSystem).2 Ad.crypto_magic = 291 :=
  ⟨fun _ => ⟨rfl, rfl⟩, rfl, rfl⟩

/-- C2: for every round of every replication (stated at the level of one
round, of a whole run, and of the full driver), the recorded instantaneous
regret `ev_true[best] - ev_true[chosen]` is nonnegative, because the
oracle `best` is the arm maximizing `bid * ctr_true` over all arms. -/
theorem C2_regret_nonneg {α : Type} [DecidableEq α] (sys : AdSystem α) :
    (∀ (st : PostState α) (rnd : Rand α) (rec : Record α) (st1 : PostState α),
      TSstep sys st rnd = some (rec, st1) → 0 ≤ rec.regret) ∧
    (∀ (st : PostState α) (rnds : List (Rand α)) (recs : List (Record α))
      (stF : PostState α), TSrun sys st rnds = some (recs, stF) →
      ∀ rec ∈ recs, 0 ≤ rec.regret) ∧
    (∀ (T R : ℕ) (rands : ℕ → ℕ → Rand α)
      (res : List (List (Record α) × PostState α)),
      driver sys T R rands = some res →
      ∀ p ∈ res, ∀ rec ∈ p.1, 0 ≤ rec.regret) := by
  refine ⟨step_regret_nonneg sys, fun st rnds => run_regret_nonneg sys rnds st, ?_⟩
  intro T R rands res h p hp rec hrec
  obtain ⟨r, hr⟩ := driverAux_mem_inv sys _ (List.range R) res h p hp
  exact run_regret_nonneg sys _ (initialization sys) p.1 p.2 (by rw [hr]) rec hrec

/-- C2 (witness): the regret recorded in the concrete round `rnd0` of the
reference system is nonnegative. -/
theorem C2_regret_nonneg_wit : 0 ≤ rec0.regret :=
  (C2_regret_nonneg refSystem).1 (initialization refSystem) rnd0 rec0 st1 hstep0

/-- C3: for every non-empty arm list with positive bids and positive
posterior samples (Beta samples lie in the open interval (0,1) and bids
are positive in the registry), the selection loop returns an arm whose
`bid * sample` product is maximal over all arms. -/
theorem C3_select_argmax {α : Type} (bid s : α → ℚ) (l : List α)
    (hne : l ≠ []) (hbid : ∀ a ∈ l, 0 < bid a) (hs : ∀ a ∈ l, 0 < s a) :
    ∃ a, select bid s l = some a ∧ a ∈ l ∧
      ∀ b ∈ l, bid b * s b ≤ bid a * s a := by
  obtain ⟨a, ha⟩ := argmaxLoop_pos_some (fun ad => bid ad * s ad) l hne
    (fun b hb => mul_pos (hbid b hb) (hs b hb))
  obtain ⟨hmem, _, hmax⟩ := argmaxLoop_eq_some (fun ad => bid ad * s ad) l a ha
  exact ⟨a, ha, hmem, hmax⟩

/-- Two arms for the hand-computed selection case of the spec:
arm 0 is A with bid 0.7, arm 1 is B with bid 0.5. -/
def bidAB : ℕ → ℚ
  | 0 => 7/10
  | 1 => 1/2
  | _ => 0

/-- Samples for the hand-computed case: A sampled 0.03, B sampled 0.05. -/
def sAB : ℕ → ℚ
  | 0 => 3/100
  | 1 => 1/20
  | _ => 0

/-- C3 (witness): on the hand-computed case A(bid 0.7, sample 0.03) vs
B(bid 0.5, sample 0.05), the products are 0.021 vs 0.025 and the selection
returns B, which the theorem certifies as the maximizer. -/
theorem C3_select_argmax_wit :
    select bidAB sAB [0, 1] = some 1 ∧
    ∃ a, select bidAB sAB [0, 1] = some a ∧ a ∈ [0, 1] ∧
      ∀ b ∈ [0, 1], bidAB b * sAB b ≤ bidAB a * sAB a :=
  ⟨by with_unfolding_all decide,
   C3_select_argmax bidAB sAB [0, 1] (by decide)
     (by with_unfolding_all decide) (by with_unfolding_all decide)⟩

/-- Helper for C4: over a list of 0/1 outcomes fed to a fixed arm,
`alpha` grows by the number of ones and `beta` by the number of zeros. -/
lemma feed_count [DecidableEq α] (arg : α) :
    ∀ (outs : List ℕ) (st : PostState α), (∀ o ∈ outs, o = 0 ∨ o = 1) →
      (feedOutcomes st arg outs).1 arg = st.1 arg + outs.count 1 ∧
      (feedOutcomes st arg outs).2 arg = st.2 arg + (outs.length - outs.count 1) := by
  intro outs
  induction outs with
  | nil => intro st _; exact ⟨rfl, rfl⟩
  | cons o rest ih =>
    intro st hall
    have hrest : ∀ x ∈ rest, x = 0 ∨ x = 1 := fun x hx => hall x (List.mem_cons_of_mem o hx)
    have hstep : feedOutcomes st arg (o :: rest) = feedOutcomes (update st arg o) arg rest := rfl
    have hcnt : rest.count 1 ≤ rest.length := List.count_le_length 1 rest
    rcases hall o (List.mem_cons_self o rest) with rfl | rfl
    · have hup1 : (update st arg 0).1 arg = st.1 arg := by
        unfold update; simp
      have hup2 : (update st arg 0).2 arg = st.2 arg + 1 := by
        unfold update; simp
      obtain ⟨ih1, ih2⟩ := ih (update st arg 0) hrest
      rw [hstep]
      rw [List.count_cons_of_ne (by decide : (1 : ℕ) ≠ 0), List.length_cons]
      constructor
      · rw [ih1, hup1]
      · rw [ih2, hup2]
        omega
    · have hup1 : (update st arg 1).1 arg = st.1 arg + 1 := by
        unfold update; simp
      have hup2 : (update st arg 1).2 arg = st.2 arg := by
        unfold update; simp
      obtain ⟨ih1, ih2⟩ := ih (update st arg 1) hrest
      rw [hstep]
      rw [List.count_cons_self, List.length_cons]
      constructor
      · rw [ih1, hup1]
        omega
      · rw [ih2, hup2]
        omega

/-- C4: feeding any 0/1 outcome sequence with `n` ones and length `m`
through the posterior update for a fixed arm, starting from the
initialized posterior, yields `alpha = initial_alpha + n` and
`beta = initial_beta + (m - n)`; a single update increments `alpha` on
outcome 1 and `beta` on outcome 0 (it is a pure function of state and
outcome by construction), and no update ever decrements either parameter
of any arm. -/
theorem C4_update_roundtrip (arg : Ad) (outs : List ℕ)
    (h : ∀ o ∈ outs, o = 0 ∨ o = 1) :
    (feedOutcomes (initialization refSystem) arg outs).1 arg
        = (initialization refSystem).1 arg + outs.count 1 ∧
    (feedOutcomes (initialization refSystem) arg outs).2 arg
        = (initialization refSystem).2 arg + (outs.length - outs.count 1) ∧
    (∀ (st : PostState Ad) (a : Ad),
      (update st a 1).1 a = st.1 a + 1 ∧ (update st a 1).2 a = st.2 a ∧
      (update st a 0).1 a = st.1 a ∧ (update st a 0).2 a = st.2 a + 1) ∧
    (∀ (st : PostState Ad) (a : Ad) (c : ℕ) (x : Ad),
      st.1 x ≤ (update st a c).1 x ∧ st.2 x ≤ (update st a c).2 x) := by
  obtain ⟨h1, h2⟩ := feed_count arg outs (initialization refSystem) h
  refine ⟨h1, h2, ?_, update_le⟩
  intro st a
  refine ⟨?_, ?_, ?_, ?_⟩ <;> unfold update <;> simp

/-- C4 (witness): feeding the outcomes [1, 0, 1] to `crypto_magic` takes
its posterior from (9, 291) to (11, 292). -/
theorem C4_update_roundtrip_wit :
    (feedOutcomes (initialization refSystem) Ad.crypto_magic [1, 0, 1]).1
        Ad.crypto_magic = 11 ∧
    (feedOutcomes (initialization refSystem) Ad.crypto_magic [1, 0, 1]).2
        Ad.crypto_magic = 292 :=
  ⟨(C4_update_roundtrip Ad.crypto_magic [1, 0, 1] (by decide)).1,
   (C4_update_roundtrip Ad.crypto_magic [1, 0, 1] (by decide)).2.1⟩

/-- C5: for the reference data both Beta parameters start strictly
positive for every arm (at the seeded historical counts), a single update
never decreases them, and after any successful run or any replication of
the driver they remain strictly positive for every arm. -/
theorem C5_posterior_pos :
    (∀ ad : Ad, 0 < (initialization refSystem).1 ad ∧
      0 < (initialization refSystem).2 ad) ∧
    (∀ (st : PostState Ad) (a : Ad) (c : ℕ) (x : Ad),
      st.1 x ≤ (update st a c).1 x ∧ st.2 x ≤ (update st a c).2 x) ∧
    (∀ (rnds : List (Rand Ad)) (recs : List (Record Ad)) (stF : PostState Ad),
      TSrun refSystem (initialization refSystem) rnds = some (recs, stF) →
      ∀ ad, 0 < stF.1 ad ∧ 0 < stF.2 ad) ∧
    (∀ (T R : ℕ) (rands : ℕ → ℕ → Rand Ad)
      (res : List (List (Record Ad) × PostState Ad)),
      driver refSystem T R rands = some res →
      ∀ p ∈ res, ∀ ad, 0 < p.2.1 ad ∧ 0 < p.2.2 ad) := by
  have hrunpos : ∀ (rnds : List (Rand Ad)) (recs : List (Record Ad))
      (stF : PostState Ad),
      TSrun refSystem (initialization refSystem) rnds = some (recs, stF) →
      ∀ ad, 0 < stF.1 ad ∧ 0 < stF.2 ad := by
    intro rnds recs stF h ad
    have hle := run_state_le refSystem rnds (initialization refSystem) recs stF h ad
    have hpos := init_pos ad
    exact ⟨lt_of_lt_of_le hpos.1 hle.1, lt_of_lt_of_le hpos.2 hle.2⟩
  refine ⟨init_pos, update_le, hrunpos, ?_⟩
  intro T R rands res h p hp ad
  obtain ⟨r, hr⟩ := driverAux_mem_inv refSystem _ (List.range R) res h p hp
  exact hrunpos _ p.1 p.2 (by rw [hr]) ad

/-- C5 (witness): after the concrete one-round run `[rnd0]`, both
parameters of `crypto_magic` are strictly positive. -/
theorem C5_posterior_pos_wit :
    0 < st1.1 Ad.crypto_magic ∧ 0 < st1.2 Ad.crypto_magic :=
  C5_posterior_pos.2.2.1 [rnd0] [rec0] st1 hrun0 Ad.crypto_magic

/-- C6: each successful round, in order, (1) draws one posterior sample
per arm (the round's `Rand`), (2) selects the arm from exactly those
samples, (3) observes the outcome drawn for the chosen arm, (4) records
reward `bid[chosen] * outcome` and regret `ev_true[best] -
ev_true[chosen]`, and (5) updates only the chosen arm's posterior with the
same chosen arm and the same outcome of this round; the run processes the
rounds of the horizon front to back with the posterior state threaded
through, producing exactly one record per round (none skipped or
reordered). -/
theorem C6_round_order {α : Type} [DecidableEq α] (sys : AdSystem α) :
    (∀ (st : PostState α) (rnd : Rand α) (rec : Record α) (st1 : PostState α),
      TSstep sys st rnd = some (rec, st1) →
        select sys.bid rnd.samples sys.ads = some rec.chosen ∧
        rec.samples = rnd.samples ∧
        rec.click = rnd.click ∧
        rec.reward = sys.bid rec.chosen * (rec.click : ℚ) ∧
        (∃ b, best sys = some b ∧
          rec.regret = ev_true sys b - ev_true sys rec.chosen) ∧
        st1 = update st rec.chosen rec.click ∧
        (∀ x, x ≠ rec.chosen → st1.1 x = st.1 x ∧ st1.2 x = st.2 x)) ∧
    (∀ st : PostState α, TSrun sys st [] = some ([], st)) ∧
    (∀ (st : PostState α) (rnds : List (Rand α)) (recs : List (Record α))
      (stF : PostState α), TSrun sys st rnds = some (recs, stF) →
      recs.length = rnds.length) ∧
    (∀ (st : PostState α) (rnd : Rand α) (rest : List (Rand α))
      (recs : List (Record α)) (stF : PostState α),
      TSrun sys st (rnd :: rest) = some (recs, stF) →
        ∃ rec stM recs', recs = rec :: recs' ∧
          TSstep sys st rnd = some (rec, stM) ∧
          TSrun sys stM rest = some (recs', stF)) := by
  refine ⟨?_, fun st => TSrun_nil sys st, fun st rnds => TSrun_length sys rnds st,
    fun st rnd rest => TSrun_cons_inv sys st rnd rest⟩
  intro st rnd rec st1 h
  obtain ⟨h1, h2, h3, h4, h5, h6⟩ := TSstep_inv sys st rnd rec st1 h
  refine ⟨h1, h2, h3, h4, h5, h6, ?_⟩
  intro x hx
  rw [h6]
  exact update_ne st rec.chosen rec.click x hx

/-- C6 (witness): in the concrete round `rnd0` of the reference system,
the recorded chosen arm is exactly the one selection returns on the
round's samples. -/
theorem C6_round_order_wit :
    select refSystem.bid rnd0.samples refSystem.ads = some rec0.chosen :=
  ((C6_round_order refSystem).1 (initialization refSystem) rnd0 rec0 st1 hstep0).1

/-- Helper for C7: when every replication's round list is empty, the
replication loop succeeds and returns one empty trace per replication. -/
lemma driverAux_empty_runs [DecidableEq α] (sys : AdSystem α)
    (g : ℕ → List (Rand α)) (hg : ∀ r, g r = []) :
    ∀ l : List ℕ,
      driverAux sys g l = some (l.map (fun _ => ([], initialization sys))) := by
  intro l
  induction l with
  | nil => rfl
  | cons r rest ih =>
    rw [driverAux_cons, hg r, TSrun_nil, ih]
    rfl

/-- C7 (counterexample): the claim says a non-positive horizon or
replication count fails at setup with a fatal error. The simulation cell
performs no validation at all: with `T = 0` (and `R = 1`) the run
completes successfully, and with `R = 0` it completes successfully with an
empty result; no error value exists anywhere on these paths. -/
theorem C7_cex :
    (driver refSystem 0 1 (fun _ _ => rnd0)).isSome = true ∧
    driver refSystem 5 0 (fun _ _ => rnd0) = some [] := ⟨rfl, rfl⟩

/-- C7 (amended): the code performs no validation of the horizon or the
replication count; a run with `T = 0` returns one empty trace per
replication (each left at the freshly initialized posterior) without
error, and a run with `R = 0` returns an empty result list without error
— `range` simply iterates zero times. -/
theorem C7_no_validation {α : Type} [DecidableEq α] (sys : AdSystem α)
    (rands : ℕ → ℕ → Rand α) :
    (∀ R, driver sys 0 R rands =
      some ((List.range R).map (fun _ => ([], initialization sys)))) ∧
    (∀ T, driver sys T 0 rands = some []) := by
  constructor
  · intro R
    exact driverAux_empty_runs sys _ (fun r => rfl) (List.range R)
  · intro T
    rfl

/-- Helper for C8: the arithmetic mean of any extraction is invariant
under permutation of the replication results. -/
lemma meanOver_perm {β : Type} (l l' : List β) (f : β → ℚ) (h : l.Perm l') :
    meanOver l f = meanOver l' f := by
  unfold meanOver
  rw [List.Perm.sum_eq (List.Perm.map f h), List.Perm.length_eq h]

/-- C8: every aggregate of the averaging cell — per-round mean reward,
mean regret, mean posterior sample per arm, and final mean Beta
parameters per arm — is identical no matter in which order the
replications' traces are processed (exactly, since the embedding computes
in ℚ; in floats this holds up to summation order). -/
theorem C8_perm_invariant {α : Type}
    (res res' : List (List (Record α) × PostState α)) (h : res.Perm res') :
    (∀ t, avg_reward res t = avg_reward res' t) ∧
    (∀ t, avg_regret res t = avg_regret res' t) ∧
    (∀ ad t, avg_ctr_prior res ad t = avg_ctr_prior res' ad t) ∧
    (∀ ad, avg_a res ad = avg_a res' ad) ∧
    (∀ ad, avg_b res ad = avg_b res' ad) :=
  ⟨fun _ => meanOver_perm res res' _ h, fun _ => meanOver_perm res res' _ h,
   fun _ _ => meanOver_perm res res' _ h, fun _ => meanOver_perm res res' _ h,
   fun _ => meanOver_perm res res' _ h⟩

/-- Two one-replication result lists in the two possible orders. -/
def res1 : List (List (Record Ad) × PostState Ad) :=
  [([rec0], st1), ([], initialization refSystem)]

/-- The same replication results as `res1`, processed in swapped order. -/
def res2 : List (List (Record Ad) × PostState Ad) :=
  [([], initialization refSystem), ([rec0], st1)]

/-- C8 (witness): the round-0 mean reward over two concrete replication
traces is the same in both processing orders. -/
theorem C8_perm_invariant_wit : avg_reward res1 0 = avg_reward res2 0 :=
  (C8_perm_invariant res1 res2
    (List.Perm.swap ([], initialization refSystem) ([rec0], st1) [])).1 0

/-- A single-arm registry whose arm has true click probability 0. -/
def zeroCtrSystem : AdSystem Unit :=
  { ads := [()], bid := fun _ => 7/10, views := fun _ => 10,
    clicks := fun _ => 1, ctr_true := fun _ => 0 }

/-- C9 (counterexample): with a single arm of true probability 0 (allowed
by the data model's [0,1] range), the oracle loop never fires
(`ev_true = 0` is not `> 0`), `best` stays `None`, and the T = 1 run
fails (`ev_true[None]` raises a KeyError in the source) instead of
recording regret 0 — so the claim's "always" does not hold. -/
theorem C9_cex :
    TSrun zeroCtrSystem (initialization zeroCtrSystem) [⟨fun _ => 1/2, 0⟩] =
      none := by
  with_unfolding_all rfl

/-- C9 (amended): for a registry with exactly one arm whose bid and true
probability are positive (and a positive posterior sample, as Beta draws
are), the T = 1 run selects that arm and records regret exactly 0. -/
theorem C9_single_arm {α : Type} [DecidableEq α] (sys : AdSystem α) (a : α)
    (st : PostState α) (rnd : Rand α) (hads : sys.ads = [a])
    (hbid : 0 < sys.bid a) (hctr : 0 < sys.ctr_true a)
    (hs : 0 < rnd.samples a) :
    ∃ rec stF, TSrun sys st [rnd] = some ([rec], stF) ∧
      rec.chosen = a ∧ rec.regret = 0 := by
  have hsel : select sys.bid rnd.samples sys.ads = some a := by
    unfold select argmaxLoop
    rw [hads]
    simp [argmaxStep, mul_pos hbid hs]
  have hbest : best sys = some a := by
    unfold best argmaxLoop
    rw [hads]
    simp [argmaxStep, ev_true, mul_pos hbid hctr]
  have hstep : TSstep sys st rnd =
      some ({ chosen := a, click := rnd.click,
              reward := sys.bid a * (rnd.click : ℚ),
              regret := ev_true sys a - ev_true sys a,
              samples := rnd.samples }, update st a rnd.click) := by
    unfold TSstep
    rw [hsel, hbest]
  refine ⟨{ chosen := a, click := rnd.click,
            reward := sys.bid a * (rnd.click : ℚ),
            regret := ev_true sys a - ev_true sys a,
            samples := rnd.samples },
          update st a rnd.click, ?_, rfl, sub_self _⟩
  simp only [TSrun_cons, hstep, TSrun_nil]

/-- A well-formed single-arm registry used to witness C9. -/
def oneArmSystem : AdSystem Unit :=
  { ads := [()], bid := fun _ => 7/10, views := fun _ => 300,
    clicks := fun _ => 9, ctr_true := fun _ => 1/40 }

/-- C9 (witness): the amended claim holds on a concrete well-formed
single-arm registry and a concrete round. -/
theorem C9_single_arm_wit :
    ∃ rec stF,
      TSrun oneArmSystem (initialization oneArmSystem) [⟨fun _ => 1/2, 1⟩] =
        some ([rec], stF) ∧ rec.chosen = () ∧ rec.regret = 0 :=
  C9_single_arm oneArmSystem () (initialization oneArmSystem)
    ⟨fun _ => 1/2, 1⟩ rfl (by with_unfolding_all decide)
    (by with_unfolding_all decide) (by with_unfolding_all decide)

/-- The selection rule exactly as the claim words it (stated only to
compare it with the implemented rule): the earliest arm in registry order
whose score strictly exceeds 0 and the scores of all earlier arms; the
first argument accumulates the arms already passed. -/
def earliestDominator (f : α → ℚ) : List α → List α → Option α
  | _, [] => none
  | earlier, a :: rest =>
    if 0 < f a ∧ ∀ b ∈ earlier, f b < f a then some a
    else earliestDominator f (earlier ++ [a]) rest

/-- The claim's literal characterization of the selection rule. -/
def claimedSelect (bid s : α → ℚ) (l : List α) : Option α :=
  earliestDominator (fun ad => bid ad * s ad) [] l

/-- A sample vector with products 0.07, 0.01, 0.2: the first arm already
exceeds 0 and all (zero) earlier arms, but the code selects the third. -/
def sCex : Ad → ℚ
  | Ad.crypto_magic => 1/10
  | Ad.green_energy => 1/50
  | Ad.infini_waves => 1/2

/-- C10 (counterexample): the implemented loop returns `infini_waves`
(the arm of maximal product 0.2), while "the earliest arm whose product
strictly exceeds both 0 and the products of all earlier arms" is
`crypto_magic` (product 0.07, no earlier arms) — the claim's
characterization names the wrong arm. -/
theorem C10_cex :
    select bid sCex ads = some Ad.infini_waves ∧
    claimedSelect bid sCex ads = some Ad.crypto_magic ∧
    select bid sCex ads ≠ claimedSelect bid sCex ads := by
  with_unfolding_all decide

/-- C10 (amended): the implemented rule is: starting from a 0.0 threshold
with strict comparison, the chosen arm is the *last* arm whose product
strictly exceeds 0 and the products of all earlier arms — equivalently,
the earliest arm attaining the (positive) maximum product, so exact ties
break in favor of the arm earliest in registry order; and if every arm's
product is ≤ 0 no arm is selected (`None`) and the round fails. -/
theorem C10_select_spec {α : Type} [DecidableEq α] :
    (∀ (bid s : α → ℚ) (l : List α),
      (∀ a ∈ l, bid a * s a ≤ 0) → select bid s l = none) ∧
    (∀ (bid s : α → ℚ) (l : List α) (a : α), select bid s l = some a →
      0 < bid a * s a ∧
      ∃ l₁ l₂, l = l₁ ++ a :: l₂ ∧
        (∀ b ∈ l₁, bid b * s b < bid a * s a) ∧
        ∀ b ∈ l₂, bid b * s b ≤ bid a * s a) ∧
    (∀ (sys : AdSystem α) (st : PostState α) (rnd : Rand α),
      (∀ a ∈ sys.ads, sys.bid a * rnd.samples a ≤ 0) →
      TSstep sys st rnd = none) := by
  have hnone : ∀ (bid s : α → ℚ) (l : List α),
      (∀ a ∈ l, bid a * s a ≤ 0) → select bid s l = none :=
    fun bid s l h => argmaxLoop_eq_none (fun ad => bid ad * s ad) l h
  refine ⟨hnone, ?_, ?_⟩
  · intro bid s l a h
    obtain ⟨_, hpos, _⟩ := argmaxLoop_eq_some (fun ad => bid ad * s ad) l a h
    obtain ⟨l₁, l₂, heq, h₁, h₂⟩ :=
      argmaxLoop_first_max (fun ad => bid ad * s ad) l a h
    exact ⟨hpos, l₁, l₂, heq, h₁, h₂⟩
  · intro sys st rnd h
    unfold TSstep
    rw [hnone sys.bid rnd.samples sys.ads h]

/-- The all-zero sample vector. -/
def zeroSample : Ad → ℚ := fun _ => 0

/-- C10 (witness): with all samples 0 every product is ≤ 0, so selection
returns `None` and the round of the reference system fails. -/
theorem C10_select_spec_wit :
    select bid zeroSample ads = none ∧
    TSstep refSystem (initialization refSystem) ⟨zeroSample, 1⟩ = none :=
  ⟨C10_select_spec.1 bid zeroSample ads (by with_unfolding_all decide),
   C10_select_spec.2.2 refSystem (initialization refSystem) ⟨zeroSample, 1⟩
     (by with_unfolding_all decide)⟩

end AdAuction
